import Mathlib

/-!
Verification of the subtour-elimination core of a branch-and-cut TSP solver.

The development shallowly embeds the problem-specific logic of the repository:
the cycle-decomposition engine (`sub_tours` with `new_node`, `best_next`,
`next_tour`), the minimum-subtour selector (`find_sub_tour` with its
`all_vertices` sentinel), the lazy-cut emission policy
(`lazy_constraint_subtour_elimination`), the vertex identity model
(`next_id`, `operator==`), and the model-construction counts
(`graph::size`, `add_vars`).

Solver double values are embedded as rationals; the presence test is the
source's `solution[v] > 0.5` comparison.  The C++ `while`/`for` loops are
embedded as fuel-indexed recursions; the fuel bound of the inner walk loop
is the source's own count-down (`for (size_t len = count; len > 0; len--)`),
and lemma `sub_tours_fuel_stable` shows the outer loop's result is
independent of any sufficiently large iteration budget, so `decompose`
(budget `n`) is the loop's unique outcome.
-/

namespace TSP

/-! ## Definitions: shallow embedding of the program -/

/-- Presence test used throughout the callback: a solver value counts as a
selected edge exactly when `solution[u][v] > 0.5`; the threshold `0.5` is
the rational `1/2`. -/
def present (sol : Nat → Nat → ℚ) (u v : Nat) : Bool :=
  decide (mkRat 1 2 < sol u v)

/-- Marking a vertex index as seen (`this->seen[node] = true`). -/
def mark (seen : Nat → Bool) (node : Nat) : Nat → Bool :=
  fun v => if v = node then true else seen v

/-- Embedding of `sub_tours::new_node`: the lowest unseen vertex index,
scanning `node = 0, 1, ..., count-1`. -/
def new_node (n : Nat) (seen : Nat → Bool) : Option Nat :=
  (List.range n).find? (fun node => !seen node)

/-- Embedding of `sub_tours::best_next`: the lowest-indexed `v` with
`solution[u][v] > 0.5 && !seen[v]`, scanning `v = 0, 1, ..., count-1`. -/
def best_next (n : Nat) (sol : Nat → Nat → ℚ) (seen : Nat → Bool) (u : Nat) :
    Option Nat :=
  (List.range n).find? (fun v => present sol u v && !seen v)

/-- Embedding of `sub_tours::next_tour(size_t node)`: each loop iteration
marks the current node, appends it to the walk, and advances to
`best_next(node)`; the loop counter `len` (the fuel) starts at `count` and
the loop stops early when `best_next` finds nothing.  Returns the walk
together with the updated seen state. -/
def next_tour (n : Nat) (sol : Nat → Nat → ℚ) :
    Nat → (Nat → Bool) → Nat → List Nat × (Nat → Bool)
  | 0, seen, _ => ([], seen)
  | fuel + 1, seen, node =>
    let seen' := mark seen node
    match best_next n sol seen' node with
    | some next =>
      let r := next_tour n sol fuel seen' next
      (node :: r.1, r.2)
    | none => ([node], seen')

/-- Embedding of the driver loop `while (auto tour = tours.next_tour())`:
repeatedly take the lowest unseen vertex and extract its walk, threading the
seen state, until every vertex is seen.  The loop is indexed by an iteration
budget; `sub_tours_fuel_stable` shows any budget of at least the number
of unseen vertices yields the same list, so the budget is not observable. -/
def sub_tours_list (n : Nat) (sol : Nat → Nat → ℚ) :
    Nat → (Nat → Bool) → List (List Nat)
  | 0, _ => []
  | fuel + 1, seen =>
    match new_node n seen with
    | none => []
    | some node =>
      let r := next_tour n sol n seen node
      r.1 :: sub_tours_list n sol fuel r.2

/-- Fresh seen state: `seen(vertices.size(), false)`. -/
def init_seen : Nat → Bool := fun _ => false

/-- One full decomposition pass over a presence matrix, starting from the
all-false seen state, with iteration budget `n` (shown sufficient). -/
def decompose (n : Nat) (sol : Nat → Nat → ℚ) : List (List Nat) :=
  sub_tours_list n sol n init_seen

/-- Embedding of the loop body of `subtour_elim::all_vertices` (modelo
revision): overwrite each position of an `n`-element zero vector with its
own index. -/
def set_indices : List Nat → Nat → List Nat
  | [], _ => []
  | _ :: rest, i => i :: set_indices rest (i + 1)

/-- Embedding of `subtour_elim::all_vertices` (modelo revision):
`std::vector<size_t>(count, 0)` followed by `vec[i] = i` for each `i`. -/
def all_vertices (n : Nat) : List Nat :=
  set_indices (List.replicate n 0) 0

/-- Embedding of `subtour_elim::all_vertices` in the codigo revisions
(`codigo/elimination.hpp`, `codigo/modelo.cpp`): the vector is default
constructed (size 0), `vec.reserve(count)` does not change its size, and the
writes `vec[i] = i` go through `operator[]` past the end, never updating the
size; the vector observable through `size()`/iteration stays empty. -/
def all_vertices_codigo (_n : Nat) : List Nat := []

/-- One iteration of the selector loop:
`if (tour->size() <= min_tour.size()) min_tour = *tour;`. -/
def min_step (min_tour t : List Nat) : List Nat :=
  if t.length ≤ min_tour.length then t else min_tour

/-- Embedding of `subtour_elim::find_sub_tour` (modelo revision): run the
decomposition to completion, keeping the latest sub-tour whose length is at
most the current minimum, starting from the `all_vertices` sentinel. -/
def find_sub_tour (n : Nat) (sol : Nat → Nat → ℚ) : List Nat :=
  (decompose n sol).foldl min_step (all_vertices n)

/-- Embedding of `find_sub_tour` in the codigo revisions, whose only
difference is the broken `all_vertices` sentinel. -/
def find_sub_tour_codigo (n : Nat) (sol : Nat → Nat → ℚ) : List Nat :=
  (decompose n sol).foldl min_step (all_vertices_codigo n)

/-- Index pairs `(u, v)` with `u < v < len` over which
`lazy_constraint_subtour_elimination` sums `vars[tour[u]][tour[v]]`. -/
def cut_pairs (tour : List Nat) : List (Nat × Nat) :=
  (List.range tour.length).flatMap fun u =>
    (List.range' (u + 1) (tour.length - (u + 1))).map fun v =>
      (tour.getD u 0, tour.getD v 0)

/-- Embedding of `subtour_elim::lazy_constraint_subtour_elimination`: find
the minimum sub-tour; if its length reaches `count`, submit nothing;
otherwise submit the cut whose expression sums the variables
`vars[tour[u]][tour[v]]` for `u < v < len` and whose right-hand side is the
source's `count - 1`, with relation `GRB_EQUAL`. -/
def lazy_cut (n : Nat) (sol : Nat → Nat → ℚ) : Option (List (Nat × Nat) × Nat) :=
  let tour := find_sub_tour n sol
  if tour.length ≥ n then none
  else some (cut_pairs tour, n - 1)

/-! ### Characterization of the ascending scans -/

/-- Number of unseen vertex indices below `n`; the loop's termination
measure. -/
def unseen_count (n : Nat) (seen : Nat → Bool) : Nat :=
  ((Finset.range n).filter (fun v => seen v = false)).card

/-- Pairs of consecutive elements of a list. -/
def adjPairs : List Nat → List (Nat × Nat)
  | [] => []
  | [_] => []
  | a :: b :: rest => (a, b) :: adjPairs (b :: rest)

/-- Edge list of a cycle written as a vertex list: consecutive pairs of the
list closed with the wrap-around edge back to the head. -/
def edges : List Nat → List (Nat × Nat)
  | [] => []
  | x :: l => adjPairs ((x :: l) ++ [x])

/-- Forced-walk predicate: from `u` in state `seen`, after marking `u` the
neighbor scan is forced to step along `arc` and then stop. -/
def Forced (n : Nat) (sol : Nat → Nat → ℚ) : (Nat → Bool) → Nat → List Nat → Prop
  | seen, u, [] => best_next n sol (mark seen u) u = none
  | seen, u, v :: arc => best_next n sol (mark seen u) u = some v ∧
      Forced n sol (mark seen u) v arc

/-- Canonical orientation of a cycle list: it starts at its least vertex and
its second element is at most its last element (the two neighbors of the
start), so the list is the unique canonical representative of the cyclic
structure it describes. -/

def canonical_cycle : List Nat → Prop
  | [] => True
  | x :: l => (∀ v ∈ l, x ≤ v) ∧ l.headD x ≤ l.getLastD x

/-- Cyclic adjacency induced by a list of cycles: `u` and `v` are adjacent
when some cycle lists them consecutively (in either direction). -/
def cyc_adj (cycles : List (List Nat)) (u v : Nat) : Bool :=
  cycles.any fun c => decide ((u, v) ∈ edges c) || decide ((v, u) ∈ edges c)

/-- The presence matrix derived from `sol` encodes exactly the disjoint
cycles `cycles`, which partition the vertex set `[0, n)`; each cycle is given
by its canonical representative list (every disjoint-cycle edge set has such
a representation). -/
def encodes (n : Nat) (sol : Nat → Nat → ℚ) (cycles : List (List Nat)) : Prop :=
  (∀ c ∈ cycles, c ≠ [] ∧ canonical_cycle c) ∧
  cycles.flatten.Nodup ∧
  (∀ v ∈ cycles.flatten, v < n) ∧
  (∀ v, v < n → v ∈ cycles.flatten) ∧
  (∀ u, u < n → ∀ v, v < n → present sol u v = cyc_adj cycles u v)

/-- Embedding of `vertex::next_id` — `return count++;`: hand out the current
counter value and leave the counter incremented. -/
def next_id (counter : Nat) : Nat × Nat := (counter, counter + 1)

/-- Initial value of the identity counter in the header revisions
(`modelo/vertex.hpp`, `codigo/vertex.hpp`): `static ... count = 1`. -/
def hpp_initial_counter : Nat := 1

/-- Initial value of the identity counter in the single-file revision
(`codigo/modelo.cpp`): `static size_t count = 0`. -/
def mcpp_initial_counter : Nat := 0

/-- Embedding of the C++ `vertex` record: identity plus two coordinate
pairs (doubles embedded as rationals). -/
structure vertex where
  ident : Nat
  x1 : ℚ
  y1 : ℚ
  x2 : ℚ
  y2 : ℚ
deriving DecidableEq

/-- Public coordinate constructor `vertex(x1, y1, x2, y2)`: delegates to the
private constructor with `next_id()`, threading the counter state. -/
def make_vertex (counter : Nat) (x1 y1 x2 y2 : ℚ) : vertex × Nat :=
  let r := next_id counter
  (⟨r.1, x1, y1, x2, y2⟩, r.2)

/-- A run of public coordinate constructions from a given counter state. -/
def make_vertices : Nat → List (ℚ × ℚ × ℚ × ℚ) → List vertex × Nat
  | c, [] => ([], c)
  | c, q :: rest =>
    let r := make_vertex c q.1 q.2.1 q.2.2.1 q.2.2.2
    let rr := make_vertices r.2 rest
    (r.1 :: rr.1, rr.2)

/-- Embedding of `vertex::operator==`: compares ids only. -/
def vertex_eq (a b : vertex) : Bool := a.ident == b.ident

/-- Default constructor in the modelo revision: fixed id `0`, counter
untouched (`vertex(): vertex(0U, 0, 0, 0, 0)`). -/
def default_vertex (counter : Nat) : vertex × Nat :=
  (⟨0, 0, 0, 0, 0⟩, counter)

/-- Default constructor in the codigo revisions: fixed id `SIZE_MAX`,
the 64-bit value 18446744073709551615, counter untouched. -/
def default_vertex_codigo (counter : Nat) : vertex × Nat :=
  (⟨18446744073709551615, 0, 0, 0, 0⟩, counter)

/-- Embedding of `graph::size`, documented in the source as the number of
edges: `(order * (order + 1)) / 2`. -/
def graph_size (order : Nat) : Nat := (order * (order + 1)) / 2

/-- Index pairs for which `graph::add_vars` creates an edge-selection
variable: `(u, v)` with `u < v < order`. -/
def add_vars_pairs (n : Nat) : List (Nat × Nat) :=
  (List.range n).flatMap fun u =>
    (List.range' (u + 1) (n - (u + 1))).map fun v => (u, v)

instance (c : List Nat) : Decidable (canonical_cycle c) :=
  match c with
  | [] => isTrue trivial
  | x :: l =>
    inferInstanceAs (Decidable ((∀ v ∈ l, x ≤ v) ∧ l.headD x ≤ l.getLastD x))

instance (n : Nat) (sol : Nat → Nat → ℚ) (cycles : List (List Nat)) :
    Decidable (encodes n sol cycles) :=
  inferInstanceAs (Decidable ((∀ c ∈ cycles, c ≠ [] ∧ canonical_cycle c) ∧
    cycles.flatten.Nodup ∧
    (∀ v ∈ cycles.flatten, v < n) ∧
    (∀ v, v < n → v ∈ cycles.flatten) ∧
    (∀ u, u < n → ∀ v, v < n → present sol u v = cyc_adj cycles u v)))

/-! ### Concrete presence matrices used as test inputs -/

/-- Matrix on 6 vertices selecting the two triangles `0-3-4` and `1-2-5`. -/
def sol_cycles_034_125 : Nat → Nat → ℚ := fun u v =>
  if (u, v) ∈ [(0, 3), (3, 0), (3, 4), (4, 3), (4, 0), (0, 4),
               (1, 2), (2, 1), (2, 5), (5, 2), (5, 1), (1, 5)] then 1 else 0

/-- Matrix on 3 vertices selecting the single triangle `0-1-2`. -/
def sol_triangle3 : Nat → Nat → ℚ := fun u v =>
  if (u, v) ∈ [(0, 1), (1, 0), (1, 2), (2, 1), (0, 2), (2, 0)] then 1 else 0

/-- Matrix on 4 vertices selecting the two single edges `0-1` and `2-3`. -/
def sol_two_pairs : Nat → Nat → ℚ := fun u v =>
  if (u, v) ∈ [(0, 1), (1, 0), (2, 3), (3, 2)] then 1 else 0

/-- Matrix selecting no edges at all. -/
def sol_zero : Nat → Nat → ℚ := fun _ _ => 0

/-- Matrix on 6 vertices selecting the two triangles `0-1-2` and `3-4-5`. -/
def sol_two_triangles : Nat → Nat → ℚ := fun u v =>
  if (u, v) ∈ [(0, 1), (1, 0), (1, 2), (2, 1), (0, 2), (2, 0),
               (3, 4), (4, 3), (4, 5), (5, 4), (3, 5), (5, 3)] then 1 else 0

/-! ### Claim theorems -/

/-! ## Theorems -/

theorem find?_range'_eq_some (p : Nat → Bool) :
    ∀ len s b, (List.range' s len).find? p = some b ↔
      (s ≤ b ∧ b < s + len ∧ p b = true ∧ ∀ j, s ≤ j → j < b → p j = false) := by
  intro len
  induction len with
  | zero =>
    intro s b
    simp only [List.range', List.find?]
    constructor
    · intro h; cases h
    · rintro ⟨h1, h2, -⟩; omega
  | succ len ih =>
    intro s b
    have hcons : List.range' s (len + 1) = s :: List.range' (s + 1) len := rfl
    rw [hcons]
    by_cases hs : p s = true
    · rw [List.find?_cons_of_pos _ hs]
      constructor
      · intro h
        injection h with h
        subst h
        exact ⟨Nat.le_refl _, by omega, hs, fun j h1 h2 => absurd h1 (by omega)⟩
      · rintro ⟨h1, h2, h3, h4⟩
        have : b = s := by
          by_contra hne
          have : p s = false := h4 s (Nat.le_refl _) (by omega)
          rw [hs] at this; cases this
        rw [this]
    · rw [List.find?_cons_of_neg _ hs]
      rw [ih (s + 1) b]
      constructor
      · rintro ⟨h1, h2, h3, h4⟩
        refine ⟨by omega, by omega, h3, fun j hj1 hj2 => ?_⟩
        rcases Nat.eq_or_lt_of_le hj1 with h | h
        · subst h; exact Bool.eq_false_iff.mpr hs
        · exact h4 j h hj2
      · rintro ⟨h1, h2, h3, h4⟩
        have hbs : b ≠ s := by
          intro h; subst h; rw [h3] at hs; exact hs rfl
        exact ⟨by omega, by omega, h3, fun j hj1 hj2 => h4 j (by omega) hj2⟩

theorem find?_range_eq_some (p : Nat → Bool) (n b : Nat) :
    (List.range n).find? p = some b ↔
      (b < n ∧ p b = true ∧ ∀ j, j < b → p j = false) := by
  rw [List.range_eq_range', find?_range'_eq_some]
  constructor
  · rintro ⟨-, h2, h3, h4⟩
    exact ⟨by omega, h3, fun j hj => h4 j (Nat.zero_le _) hj⟩
  · rintro ⟨h1, h2, h3⟩
    exact ⟨Nat.zero_le _, by omega, h2, fun j _ hj => h3 j hj⟩

theorem find?_range_eq_none (p : Nat → Bool) (n : Nat) :
    (List.range n).find? p = none ↔ ∀ j, j < n → p j = false := by
  rw [List.find?_eq_none]
  constructor
  · intro h j hj
    have := h j (List.mem_range.mpr hj)
    exact Bool.eq_false_iff.mpr this
  · intro h x hx
    rw [h x (List.mem_range.mp hx)]
    simp

theorem new_node_eq_some {n : Nat} {seen : Nat → Bool} {b : Nat} :
    new_node n seen = some b ↔
      (b < n ∧ seen b = false ∧ ∀ j, j < b → seen j = true) := by
  rw [new_node, find?_range_eq_some]
  constructor
  · rintro ⟨h1, h2, h3⟩
    refine ⟨h1, by simpa using h2, fun j hj => ?_⟩
    have := h3 j hj
    simpa using this
  · rintro ⟨h1, h2, h3⟩
    refine ⟨h1, by simpa using h2, fun j hj => ?_⟩
    simpa using h3 j hj

theorem new_node_eq_none {n : Nat} {seen : Nat → Bool} :
    new_node n seen = none ↔ ∀ j, j < n → seen j = true := by
  rw [new_node, find?_range_eq_none]
  constructor
  · intro h j hj
    simpa using h j hj
  · intro h j hj
    simpa using h j hj

theorem best_next_eq_some {n : Nat} {sol : Nat → Nat → ℚ} {seen : Nat → Bool}
    {u b : Nat} :
    best_next n sol seen u = some b ↔
      (b < n ∧ present sol u b = true ∧ seen b = false ∧
        ∀ j, j < b → (present sol u j = true → seen j = true)) := by
  rw [best_next, find?_range_eq_some]
  constructor
  · rintro ⟨h1, h2, h3⟩
    simp only [Bool.and_eq_true, Bool.not_eq_true'] at h2
    refine ⟨h1, h2.1, h2.2, fun j hj hp => ?_⟩
    have := h3 j hj
    rcases Bool.and_eq_false_iff.mp this with h | h
    · rw [hp] at h; cases h
    · simpa using h
  · rintro ⟨h1, h2, h3, h4⟩
    refine ⟨h1, by simp [h2, h3], fun j hj => ?_⟩
    by_cases hp : present sol u j = true
    · simp [hp, h4 j hj hp]
    · simp [Bool.eq_false_iff.mpr hp]

theorem best_next_eq_none {n : Nat} {sol : Nat → Nat → ℚ} {seen : Nat → Bool}
    {u : Nat} :
    best_next n sol seen u = none ↔
      ∀ j, j < n → present sol u j = true → seen j = true := by
  rw [best_next, find?_range_eq_none]
  constructor
  · intro h j hj hp
    have := h j hj
    rcases Bool.and_eq_false_iff.mp this with h' | h'
    · rw [hp] at h'; cases h'
    · simpa using h'
  · intro h j hj
    by_cases hp : present sol u j = true
    · simp [hp, h j hj hp]
    · simp [Bool.eq_false_iff.mpr hp]

/-! ### Properties of the walk extraction (`next_tour`) -/

theorem next_tour_length (n : Nat) (sol : Nat → Nat → ℚ) :
    ∀ fuel seen node, (next_tour n sol fuel seen node).1.length ≤ fuel := by
  intro fuel
  induction fuel with
  | zero => intro seen node; simp [next_tour]
  | succ fuel ih =>
    intro seen node
    simp only [next_tour]
    cases h : best_next n sol (mark seen node) node with
    | some next => simpa using ih (mark seen node) next
    | none => simp

theorem next_tour_seen (n : Nat) (sol : Nat → Nat → ℚ) :
    ∀ fuel seen node v, ((next_tour n sol fuel seen node).2 v = true ↔
      (seen v = true ∨ v ∈ (next_tour n sol fuel seen node).1)) := by
  intro fuel
  induction fuel with
  | zero => intro seen node v; simp [next_tour]
  | succ fuel ih =>
    intro seen node v
    simp only [next_tour]
    cases h : best_next n sol (mark seen node) node with
    | some next =>
      simp only []
      rw [ih (mark seen node) next v]
      simp only [mark, List.mem_cons]
      by_cases hv : v = node <;> simp [hv]
    | none =>
      simp only [mark, List.mem_singleton]
      by_cases hv : v = node <;> simp [hv]

theorem next_tour_fresh (n : Nat) (sol : Nat → Nat → ℚ) :
    ∀ fuel seen node, seen node = false → node < n →
      ((next_tour n sol fuel seen node).1.Nodup ∧
        ∀ v ∈ (next_tour n sol fuel seen node).1, seen v = false ∧ v < n) := by
  intro fuel
  induction fuel with
  | zero => intro seen node _ _; simp [next_tour]
  | succ fuel ih =>
    intro seen node hnode hlt
    simp only [next_tour]
    cases h : best_next n sol (mark seen node) node with
    | some next =>
      have hnext := best_next_eq_some.mp h
      have ihn := ih (mark seen node) next hnext.2.2.1 hnext.1
      simp only [List.nodup_cons, List.mem_cons]
      have hnotmem : node ∉ (next_tour n sol fuel (mark seen node) next).1 := by
        intro hmem
        have := (ihn.2 node hmem).1
        simp [mark] at this
      refine ⟨⟨hnotmem, ihn.1⟩, fun v hv => ?_⟩
      rcases hv with hv | hv
      · subst hv; exact ⟨hnode, hlt⟩
      · have := ihn.2 v hv
        refine ⟨?_, this.2⟩
        have hm := this.1
        simp only [mark] at hm
        by_cases hveq : v = node
        · simp [hveq] at hm
        · simpa [hveq] using hm
    | none =>
      simp only [List.nodup_singleton, List.mem_singleton]
      exact ⟨trivial, fun v hv => by subst hv; exact ⟨hnode, hlt⟩⟩

theorem next_tour_head (n : Nat) (sol : Nat → Nat → ℚ) (fuel : Nat)
    (seen : Nat → Bool) (node : Nat) (h : 0 < fuel) :
    ∃ rest, (next_tour n sol fuel seen node).1 = node :: rest := by
  cases fuel with
  | zero => omega
  | succ fuel =>
    simp only [next_tour]
    cases hb : best_next n sol (mark seen node) node with
    | some next => exact ⟨_, rfl⟩
    | none => exact ⟨[], rfl⟩

/-! ### Properties of the decomposition loop (`sub_tours_list`) -/

theorem unseen_count_zero {n : Nat} {seen : Nat → Bool}
    (h : unseen_count n seen = 0) : ∀ v, v < n → seen v = true := by
  intro v hv
  by_contra hfalse
  have hmem : v ∈ (Finset.range n).filter (fun v => seen v = false) := by
    simp [Finset.mem_filter, Finset.mem_range, hv, Bool.eq_false_iff.mpr hfalse]
  have hpos := Finset.card_pos.mpr ⟨v, hmem⟩
  simp only [unseen_count] at h
  omega

theorem unseen_count_next_tour (n : Nat) (sol : Nat → Nat → ℚ)
    {seen : Nat → Bool} {node : Nat} (hn : node < n) (hs : seen node = false)
    (hfuel : 0 < n) :
    unseen_count n (next_tour n sol n seen node).2 < unseen_count n seen := by
  apply Finset.card_lt_card
  rw [Finset.ssubset_iff_of_subset]
  · refine ⟨node, ?_, ?_⟩
    · simp [Finset.mem_filter, Finset.mem_range, hn, hs]
    · obtain ⟨rest, hrest⟩ := next_tour_head n sol n seen node hfuel
      have : (next_tour n sol n seen node).2 node = true := by
        rw [next_tour_seen]
        right
        rw [hrest]
        exact List.mem_cons_self _ _
      simp [Finset.mem_filter, this]
  · intro v hv
    simp only [Finset.mem_filter, Finset.mem_range] at hv ⊢
    refine ⟨hv.1, ?_⟩
    by_contra hc
    have hseen : seen v = true := by
      cases h : seen v
      · exact absurd h hc
      · rfl
    have : (next_tour n sol n seen node).2 v = true :=
      (next_tour_seen n sol n seen node v).mpr (Or.inl hseen)
    rw [this] at hv
    exact absurd hv.2 (by simp)

theorem sub_tours_join (n : Nat) (sol : Nat → Nat → ℚ) :
    ∀ fuel seen, ((sub_tours_list n sol fuel seen).flatten.Nodup ∧
      ∀ v ∈ (sub_tours_list n sol fuel seen).flatten, seen v = false ∧ v < n) := by
  intro fuel
  induction fuel with
  | zero => intro seen; simp [sub_tours_list]
  | succ fuel ih =>
    intro seen
    simp only [sub_tours_list]
    cases h : new_node n seen with
    | none => simp
    | some node =>
      obtain ⟨hn, hs, -⟩ := new_node_eq_some.mp h
      have hfresh := next_tour_fresh n sol n seen node hs hn
      have ihn := ih (next_tour n sol n seen node).2
      simp only [List.flatten_cons]
      constructor
      · rw [List.nodup_append]
        refine ⟨hfresh.1, ihn.1, fun v hv hv' => ?_⟩
        have h1 : (next_tour n sol n seen node).2 v = true :=
          (next_tour_seen n sol n seen node v).mpr (Or.inr hv)
        have h2 := (ihn.2 v hv').1
        rw [h1] at h2
        cases h2
      · intro v hv
        rcases List.mem_append.mp hv with hv | hv
        · exact hfresh.2 v hv
        · have h2 := ihn.2 v hv
          refine ⟨?_, h2.2⟩
          by_contra hc
          have hseen : seen v = true := by
            cases hsv : seen v
            · exact absurd hsv hc
            · rfl
          have : (next_tour n sol n seen node).2 v = true :=
            (next_tour_seen n sol n seen node v).mpr (Or.inl hseen)
          rw [this] at h2
          exact absurd h2.1 (by simp)

theorem sub_tours_nonempty (n : Nat) (sol : Nat → Nat → ℚ) :
    ∀ fuel seen t, t ∈ sub_tours_list n sol fuel seen → t ≠ [] := by
  intro fuel
  induction fuel with
  | zero => intro seen t ht; simp [sub_tours_list] at ht
  | succ fuel ih =>
    intro seen t ht
    simp only [sub_tours_list] at ht
    cases h : new_node n seen with
    | none => rw [h] at ht; simp at ht
    | some node =>
      rw [h] at ht
      obtain ⟨hn, -, -⟩ := new_node_eq_some.mp h
      rcases List.mem_cons.mp ht with ht | ht
      · obtain ⟨rest, hrest⟩ := next_tour_head n sol n seen node (by omega)
        rw [ht, hrest]
        simp
      · exact ih _ t ht

theorem sub_tours_tour_length (n : Nat) (sol : Nat → Nat → ℚ) :
    ∀ fuel seen t, t ∈ sub_tours_list n sol fuel seen → t.length ≤ n := by
  intro fuel
  induction fuel with
  | zero => intro seen t ht; simp [sub_tours_list] at ht
  | succ fuel ih =>
    intro seen t ht
    simp only [sub_tours_list] at ht
    cases h : new_node n seen with
    | none => rw [h] at ht; simp at ht
    | some node =>
      rw [h] at ht
      rcases List.mem_cons.mp ht with ht | ht
      · rw [ht]; exact next_tour_length n sol n seen node
      · exact ih _ t ht

theorem sub_tours_complete (n : Nat) (sol : Nat → Nat → ℚ) :
    ∀ fuel seen, unseen_count n seen ≤ fuel → ∀ v, v < n →
      seen v = true ∨ v ∈ (sub_tours_list n sol fuel seen).flatten := by
  intro fuel
  induction fuel with
  | zero =>
    intro seen hc v hv
    exact Or.inl (unseen_count_zero (by omega) v hv)
  | succ fuel ih =>
    intro seen hc v hv
    simp only [sub_tours_list]
    cases h : new_node n seen with
    | none => exact Or.inl (new_node_eq_none.mp h v hv)
    | some node =>
      obtain ⟨hn, hs, -⟩ := new_node_eq_some.mp h
      have hdec := unseen_count_next_tour n sol hn hs (by omega)
      have := ih (next_tour n sol n seen node).2 (by omega) v hv
      rcases this with hseen | hmem
      · rcases (next_tour_seen n sol n seen node v).mp hseen with h' | h'
        · exact Or.inl h'
        · refine Or.inr ?_
          rw [List.flatten_cons]
          exact List.mem_append_left _ h'
      · refine Or.inr ?_
        rw [List.flatten_cons]
        exact List.mem_append_right _ hmem

theorem sub_tours_fuel_stable (n : Nat) (sol : Nat → Nat → ℚ) :
    ∀ fuel1 fuel2 seen, unseen_count n seen ≤ fuel1 →
      unseen_count n seen ≤ fuel2 →
      sub_tours_list n sol fuel1 seen = sub_tours_list n sol fuel2 seen := by
  intro fuel1
  induction fuel1 with
  | zero =>
    intro fuel2 seen h1 h2
    have hall := @unseen_count_zero n seen (by omega)
    have hnone : new_node n seen = none := new_node_eq_none.mpr hall
    cases fuel2 with
    | zero => rfl
    | succ fuel2 => simp [sub_tours_list, hnone]
  | succ fuel1 ih =>
    intro fuel2 seen h1 h2
    cases fuel2 with
    | zero =>
      have hall := @unseen_count_zero n seen (by omega)
      have hnone : new_node n seen = none := new_node_eq_none.mpr hall
      simp [sub_tours_list, hnone]
    | succ fuel2 =>
      simp only [sub_tours_list]
      cases h : new_node n seen with
      | none => rfl
      | some node =>
        obtain ⟨hn, hs, -⟩ := new_node_eq_some.mp h
        have hdec := unseen_count_next_tour n sol hn hs (by omega)
        exact congrArg ((next_tour n sol n seen node).1 :: ·)
          (ih fuel2 (next_tour n sol n seen node).2 (by omega) (by omega))

theorem unseen_count_init (n : Nat) : unseen_count n init_seen = n := by
  simp [unseen_count, init_seen]

/-! ### The sentinel (`all_vertices`) and the selector fold -/

theorem set_indices_replicate (x : Nat) :
    ∀ n i, set_indices (List.replicate n x) i = List.range' i n := by
  intro n
  induction n with
  | zero => intro i; rfl
  | succ n ih =>
    intro i
    simp only [List.replicate, set_indices, ih]
    rfl

theorem all_vertices_eq_range (n : Nat) : all_vertices n = List.range n := by
  rw [all_vertices, set_indices_replicate, List.range_eq_range']

theorem all_vertices_length (n : Nat) : (all_vertices n).length = n := by
  rw [all_vertices_eq_range, List.length_range]

theorem foldl_min_step_spec :
    ∀ (L : List (List Nat)) (a : List Nat),
      (L.foldl min_step a = a ∧ ∀ t ∈ L, a.length < t.length) ∨
      (∃ pre post, L = pre ++ (L.foldl min_step a) :: post ∧
        (L.foldl min_step a).length ≤ a.length ∧
        (∀ t ∈ pre, (L.foldl min_step a).length ≤ t.length) ∧
        (∀ t ∈ post, (L.foldl min_step a).length < t.length)) := by
  intro L
  induction L with
  | nil => intro a; exact Or.inl ⟨rfl, by simp⟩
  | cons t L' ih =>
    intro a
    have hfold : (t :: L').foldl min_step a = L'.foldl min_step (min_step a t) :=
      rfl
    by_cases ht : t.length ≤ a.length
    · have hstep : min_step a t = t := by simp [min_step, ht]
      rw [hfold, hstep]
      rcases ih t with ⟨hr, hall⟩ | ⟨pre, post, hsplit, hle, hpre, hpost⟩
      · refine Or.inr ⟨[], L', ?_, ?_, by simp, ?_⟩
        · rw [hr]; rfl
        · rw [hr]; exact ht
        · intro s hs; rw [hr]; exact hall s hs
      · refine Or.inr ⟨t :: pre, post, ?_, ?_, ?_, hpost⟩
        · rw [List.cons_append, ← hsplit]
        · exact Nat.le_trans hle ht
        · intro s hs
          rcases List.mem_cons.mp hs with hs | hs
          · rw [hs]; exact hle
          · exact hpre s hs
    · have hstep : min_step a t = a := by simp [min_step, ht]
      rw [hfold, hstep]
      rcases ih a with ⟨hr, hall⟩ | ⟨pre, post, hsplit, hle, hpre, hpost⟩
      · refine Or.inl ⟨hr, fun s hs => ?_⟩
        rcases List.mem_cons.mp hs with hs | hs
        · rw [hs]; omega
        · exact hall s hs
      · refine Or.inr ⟨t :: pre, post, ?_, hle, ?_, hpost⟩
        · rw [List.cons_append, ← hsplit]
        · intro s hs
          rcases List.mem_cons.mp hs with hs | hs
          · rw [hs]; omega
          · exact hpre s hs

/-! ### Cycle structures (for the claims quantifying over cycle covers) -/

theorem adjPairs_fst_mem_dropLast :
    ∀ (t : List Nat) a b, (a, b) ∈ adjPairs t → a ∈ t.dropLast := by
  intro t
  induction t with
  | nil => intro a b h; simp [adjPairs] at h
  | cons z s ih =>
    intro a b h
    cases s with
    | nil => simp [adjPairs] at h
    | cons y s' =>
      simp only [adjPairs, List.mem_cons] at h
      rcases h with h | h
      · have : a = z := by
          have := congrArg Prod.fst h
          simpa using this
        rw [this]
        simp [List.dropLast]
      · have := ih a b h
        simp only [List.dropLast] at this ⊢
        exact List.mem_cons_of_mem _ this

theorem adjPairs_snd_mem_tail :
    ∀ (z : Nat) (s : List Nat) a b, (a, b) ∈ adjPairs (z :: s) → b ∈ s := by
  intro z s
  induction s generalizing z with
  | nil => intro a b h; simp [adjPairs] at h
  | cons y s' ih =>
    intro a b h
    simp only [adjPairs, List.mem_cons] at h
    rcases h with h | h
    · have : b = y := by
        have := congrArg Prod.snd h
        simpa using this
      rw [this]; exact List.mem_cons_self _ _
    · exact List.mem_cons_of_mem _ (ih y a b h)

theorem adjPairs_succ :
    ∀ (u : List Nat) (w : List Nat) (a b : Nat),
      (u ++ a :: w).count a = 1 →
      ((a, b) ∈ adjPairs (u ++ a :: w) ↔ w.head? = some b) := by
  intro u
  induction u with
  | nil =>
    intro w a b hcount
    simp only [List.nil_append] at hcount ⊢
    have hnotw : a ∉ w := by
      intro hmem
      have h1 : 1 ≤ w.count a := List.one_le_count_iff.mpr hmem
      rw [List.count_cons_self] at hcount
      omega
    cases w with
    | nil => simp [adjPairs]
    | cons y w' =>
      simp only [adjPairs, List.mem_cons, List.head?]
      constructor
      · intro h
        rcases h with h | h
        · have : b = y := by
            have := congrArg Prod.snd h
            simpa using this
          rw [this]
        · exfalso
          have h2 := adjPairs_fst_mem_dropLast _ _ _ h
          exact hnotw ((List.dropLast_sublist (y :: w')).subset h2)
      · intro h
        injection h with h
        exact Or.inl (by rw [h])
  | cons z u' ih =>
    intro w a b hcount
    have hza : z ≠ a := by
      intro h
      subst h
      have h1 : (u' ++ z :: w).count z ≥ 1 :=
        List.one_le_count_iff.mpr (by simp)
      rw [List.cons_append, List.count_cons_self] at hcount
      omega
    have hcount' : (u' ++ a :: w).count a = 1 := by
      rw [List.cons_append, List.count_cons_of_ne (fun h => hza h.symm)] at hcount
      exact hcount
    rcases hrest : u' ++ a :: w with _ | ⟨r0, r'⟩
    · exact absurd hrest (by simp)
    · rw [List.cons_append, hrest]
      simp only [adjPairs, List.mem_cons]
      constructor
      · intro h
        rcases h with h | h
        · exfalso
          have : a = z := by
            have := congrArg Prod.fst h
            simpa using this
          exact hza this.symm
        · rw [← hrest] at h
          exact (ih w a b hcount').mp h
      · intro h
        right
        rw [← hrest]
        exact (ih w a b hcount').mpr h

theorem adjPairs_pred :
    ∀ (u : List Nat) (w : List Nat) (a b : Nat),
      (u ++ a :: w).count a = 1 →
      ((b, a) ∈ adjPairs (u ++ a :: w) ↔ u.getLast? = some b) := by
  intro u
  induction u with
  | nil =>
    intro w a b hcount
    simp only [List.nil_append] at hcount ⊢
    have hnotw : a ∉ w := by
      intro hmem
      have h1 : 1 ≤ w.count a := List.one_le_count_iff.mpr hmem
      rw [List.count_cons_self] at hcount
      omega
    cases w with
    | nil => simp [adjPairs]
    | cons y w' =>
      simp only [adjPairs, List.mem_cons, List.getLast?]
      constructor
      · intro h
        rcases h with h | h
        · exfalso
          have : a = y := by
            have := congrArg Prod.snd h
            simpa using this
          exact hnotw (this ▸ List.mem_cons_self _ _)
        · exfalso
          have := adjPairs_snd_mem_tail _ _ _ _ h
          exact hnotw (List.mem_cons_of_mem _ this)
      · intro h; cases h
  | cons z u' ih =>
    intro w a b hcount
    have hza : z ≠ a := by
      intro h
      subst h
      have h1 : (u' ++ z :: w).count z ≥ 1 :=
        List.one_le_count_iff.mpr (by simp)
      rw [List.cons_append, List.count_cons_self] at hcount
      omega
    have hcount' : (u' ++ a :: w).count a = 1 := by
      rw [List.cons_append, List.count_cons_of_ne (fun h => hza h.symm)] at hcount
      exact hcount
    have hanotu' : a ∉ u' := by
      intro hmem
      have h1 : 1 ≤ u'.count a := List.one_le_count_iff.mpr hmem
      have h2 : (u' ++ a :: w).count a = u'.count a + (a :: w).count a :=
        List.count_append _ _ _
      rw [List.count_cons_self] at h2
      omega
    cases u' with
    | nil =>
      simp only [List.nil_append, List.cons_append] at *
      simp only [adjPairs, List.mem_cons]
      have hnotw : a ∉ w := by
        intro hmem
        have h1 : 1 ≤ w.count a := List.one_le_count_iff.mpr hmem
        rw [List.count_cons_self] at hcount'
        omega
      constructor
      · intro h
        rcases h with h | h
        · have hb : b = z := by
            have := congrArg Prod.fst h
            simpa using this
          simp [hb]
        · exfalso
          have := adjPairs_snd_mem_tail _ _ _ _ h
          exact hnotw this
      · intro h
        simp only [List.getLast?_singleton, Option.some.injEq] at h
        exact Or.inl (by rw [h])
    | cons c u'' =>
      have hshape : (c :: u'') ++ a :: w = c :: (u'' ++ a :: w) := rfl
      rw [List.cons_append, hshape]
      simp only [adjPairs, List.mem_cons]
      have hca : c ≠ a := fun h => hanotu' (h ▸ List.mem_cons_self _ _)
      constructor
      · intro h
        rcases h with h | h
        · exfalso
          have : a = c := by
            have := congrArg Prod.snd h
            simpa using this
          exact hca this.symm
        · rw [← hshape] at h
          have := (ih w a b hcount').mp h
          rw [List.getLast?_cons_cons]
          exact this
      · intro h
        right
        rw [← hshape]
        apply (ih w a b hcount').mpr
        rw [List.getLast?_cons_cons] at h
        exact h

theorem adjPairs_succ_head (x : Nat) (s : List Nat) (hx : x ∉ s) (b : Nat) :
    ((x, b) ∈ adjPairs (x :: (s ++ [x]))) ↔ (s ++ [x]).head? = some b := by
  cases s with
  | nil =>
    simp only [List.nil_append, adjPairs, List.mem_singleton, List.head?]
    constructor
    · intro h
      have : b = x := by
        have := congrArg Prod.snd h
        simpa using this
      rw [this]
    · intro h
      injection h with h
      rw [h]
  | cons c s' =>
    have hshape : (c :: s') ++ [x] = c :: (s' ++ [x]) := rfl
    rw [hshape]
    simp only [adjPairs, List.mem_cons, List.head?]
    constructor
    · intro h
      rcases h with h | h
      · have : b = c := by
          have := congrArg Prod.snd h
          simpa using this
        rw [this]
      · exfalso
        have h2 := adjPairs_fst_mem_dropLast _ _ _ h
        have h3 : (c :: (s' ++ [x])).dropLast = c :: s' := by
          have : c :: (s' ++ [x]) = (c :: s') ++ [x] := rfl
          rw [this, List.dropLast_concat]
        rw [h3] at h2
        exact hx h2
    · intro h
      injection h with h
      exact Or.inl (by rw [h])

theorem adjPairs_pred_head (x : Nat) (s : List Nat) (hx : x ∉ s) (b : Nat) :
    ((b, x) ∈ adjPairs (x :: (s ++ [x]))) ↔ (x :: s).getLast? = some b := by
  cases s with
  | nil =>
    simp only [List.nil_append, adjPairs, List.mem_singleton,
      List.getLast?_singleton]
    constructor
    · intro h
      have : b = x := by
        have := congrArg Prod.fst h
        simpa using this
      rw [this]
    · intro h
      injection h with h
      rw [h]
  | cons c s' =>
    have hshape : (c :: s') ++ [x] = c :: (s' ++ [x]) := rfl
    rw [hshape]
    simp only [adjPairs, List.mem_cons]
    have hcount : ((c :: s') ++ [x]).count x = 1 := by
      rw [List.count_append]
      have h0 : (c :: s').count x = 0 := List.count_eq_zero.mpr hx
      simp [h0]
    have hpred := adjPairs_pred (c :: s') [] x b (by simpa using hcount)
    constructor
    · intro h
      rcases h with h | h
      · exfalso
        have : x = c := by
          have := congrArg Prod.snd h
          simpa using this
        exact hx (this ▸ List.mem_cons_self _ _)
      · rw [← hshape] at h
        have h1 : List.getLast? (c :: s') = some b := by
          have : (c :: s') ++ x :: [] = (c :: s') ++ [x] := rfl
          exact hpred.mp (by rw [this]; exact h)
        rw [List.getLast?_cons_cons]
        exact h1
    · intro h
      right
      rw [List.getLast?_cons_cons] at h
      rw [← hshape]
      have := hpred.mpr h
      simpa using this

theorem edges_mem (x : Nat) (l : List Nat) (a b : Nat)
    (h : (a, b) ∈ edges (x :: l)) : a ∈ x :: l ∧ b ∈ x :: l := by
  have hform : edges (x :: l) = adjPairs (x :: (l ++ [x])) := rfl
  rw [hform] at h
  constructor
  · have h2 := adjPairs_fst_mem_dropLast _ _ _ h
    have h3 : (x :: (l ++ [x])).dropLast = x :: l := by
      have : x :: (l ++ [x]) = (x :: l) ++ [x] := rfl
      rw [this, List.dropLast_concat]
    rw [h3] at h2
    exact h2
  · have h2 := adjPairs_snd_mem_tail _ _ _ _ h
    rcases List.mem_append.mp h2 with h2 | h2
    · exact List.mem_cons_of_mem _ h2
    · simp only [List.mem_singleton] at h2
      rw [h2]
      exact List.mem_cons_self _ _

theorem edges_succ_split (x : Nat) (l l1 l2 : List Nat) (cur : Nat)
    (hsplit : x :: l = l1 ++ cur :: l2) (hnodup : (x :: l).Nodup) (b : Nat) :
    ((cur, b) ∈ edges (x :: l)) ↔ (l2 ++ [x]).head? = some b := by
  have hform : edges (x :: l) = adjPairs (x :: (l ++ [x])) := rfl
  have hxl : x ∉ l := (List.nodup_cons.mp hnodup).1
  cases l1 with
  | nil =>
    simp only [List.nil_append] at hsplit
    injection hsplit with h1 h2
    subst h1; subst h2
    rw [hform]
    exact adjPairs_succ_head x l hxl b
  | cons z l1' =>
    have hx : x = z := by
      have := congrArg List.head? hsplit
      simpa using this
    subst hx
    have hl : l = l1' ++ cur :: l2 := by
      have := congrArg List.tail hsplit
      simpa using this
    have hcur_l : cur ∈ l := by rw [hl]; simp
    have hcur_x : cur ≠ x := fun h => hxl (h ▸ hcur_l)
    have hshape : x :: (l ++ [x]) = (x :: l1') ++ cur :: (l2 ++ [x]) := by
      rw [hl]; simp
    have hcount : ((x :: l1') ++ cur :: (l2 ++ [x])).count cur = 1 := by
      rw [← hshape]
      have hlnodup : l.Nodup := (List.nodup_cons.mp hnodup).2
      have hcl : l.count cur = 1 := List.count_eq_one_of_mem hlnodup hcur_l
      have : (x :: (l ++ [x])).count cur = (l ++ [x]).count cur := by
        rw [List.count_cons_of_ne hcur_x]
      rw [this, List.count_append, hcl]
      simp [List.count_singleton, hcur_x]
    rw [hform, hshape]
    exact adjPairs_succ (x :: l1') (l2 ++ [x]) cur b hcount

theorem edges_pred_split (x : Nat) (l l1 l2 : List Nat) (cur : Nat)
    (hsplit : x :: l = l1 ++ cur :: l2) (hnodup : (x :: l).Nodup) (b : Nat) :
    ((b, cur) ∈ edges (x :: l)) ↔
      (l1.getLast? = some b ∨ (l1 = [] ∧ (x :: l).getLast? = some b)) := by
  have hform : edges (x :: l) = adjPairs (x :: (l ++ [x])) := rfl
  have hxl : x ∉ l := (List.nodup_cons.mp hnodup).1
  cases l1 with
  | nil =>
    simp only [List.nil_append] at hsplit
    injection hsplit with h1 h2
    subst h1; subst h2
    rw [hform]
    rw [adjPairs_pred_head x l hxl b]
    simp
  | cons z l1' =>
    have hx : x = z := by
      have := congrArg List.head? hsplit
      simpa using this
    subst hx
    have hl : l = l1' ++ cur :: l2 := by
      have := congrArg List.tail hsplit
      simpa using this
    have hcur_l : cur ∈ l := by rw [hl]; simp
    have hcur_x : cur ≠ x := fun h => hxl (h ▸ hcur_l)
    have hshape : x :: (l ++ [x]) = (x :: l1') ++ cur :: (l2 ++ [x]) := by
      rw [hl]; simp
    have hcount : ((x :: l1') ++ cur :: (l2 ++ [x])).count cur = 1 := by
      rw [← hshape]
      have hlnodup : l.Nodup := (List.nodup_cons.mp hnodup).2
      have hcl : l.count cur = 1 := List.count_eq_one_of_mem hlnodup hcur_l
      have : (x :: (l ++ [x])).count cur = (l ++ [x]).count cur := by
        rw [List.count_cons_of_ne hcur_x]
      rw [this, List.count_append, hcl]
      simp [List.count_singleton, hcur_x]
    rw [hform, hshape]
    rw [adjPairs_pred (x :: l1') (l2 ++ [x]) cur b hcount]
    simp

theorem mark_self (seen : Nat → Bool) (u : Nat) : mark seen u u = true := by
  simp [mark]

theorem mark_ne (seen : Nat → Bool) {u v : Nat} (h : v ≠ u) :
    mark seen u v = seen v := by
  simp [mark, h]

theorem mark_true (seen : Nat → Bool) (u : Nat) {v : Nat} (h : seen v = true) :
    mark seen u v = true := by
  by_cases hv : v = u
  · rw [hv]; exact mark_self seen u
  · rw [mark_ne seen hv]; exact h

theorem mem_of_getLast?_eq_some :
    ∀ (l : List Nat) (a : Nat), l.getLast? = some a → a ∈ l := by
  intro l
  induction l with
  | nil => intro a h; cases h
  | cons z s ih =>
    intro a h
    cases s with
    | nil =>
      simp only [List.getLast?_singleton, Option.some.injEq] at h
      rw [← h]
      exact List.mem_cons_self _ _
    | cons y s' =>
      rw [List.getLast?_cons_cons] at h
      exact List.mem_cons_of_mem _ (ih a h)

theorem next_tour_forced (n : Nat) (sol : Nat → Nat → ℚ) :
    ∀ (arc : List Nat) (fuel : Nat) (seen : Nat → Bool) (u : Nat),
      Forced n sol seen u arc → arc.length < fuel →
      (next_tour n sol fuel seen u).1 = u :: arc := by
  intro arc
  induction arc with
  | nil =>
    intro fuel seen u hf hfuel
    cases fuel with
    | zero => omega
    | succ fuel =>
      have hnone : best_next n sol (mark seen u) u = none := hf
      simp [next_tour, hnone]
  | cons v arc' ih =>
    intro fuel seen u hf hfuel
    cases fuel with
    | zero => simp at hfuel
    | succ fuel =>
      obtain ⟨hsome, hrest⟩ := hf
      simp only [next_tour, hsome]
      have := ih fuel (mark seen u) v hrest (by simpa using hfuel)
      simp [this]

theorem forced_cycle_aux (n : Nat) (sol : Nat → Nat → ℚ) (x : Nat) (l : List Nat)
    (hnodup : (x :: l).Nodup)
    (hlt : ∀ v ∈ x :: l, v < n)
    (hadj : ∀ a v, a ∈ x :: l → v < n →
      (present sol a v = true ↔
        ((a, v) ∈ edges (x :: l) ∨ (v, a) ∈ edges (x :: l))))
    (hcan : l.headD x ≤ l.getLastD x) :
    ∀ (l2 l1 : List Nat) (cur : Nat) (seen : Nat → Bool),
      x :: l = l1 ++ cur :: l2 →
      (∀ v ∈ cur :: l2, seen v = false) →
      (∀ v ∈ l1, seen v = true) →
      Forced n sol seen cur l2 := by
  intro l2
  induction l2 with
  | nil =>
    intro l1 cur seen hsplit hs1 hs2
    show best_next n sol (mark seen cur) cur = none
    rw [best_next_eq_none]
    intro j hj hpres
    have hcur_mem : cur ∈ x :: l := by rw [hsplit]; simp
    rcases (hadj cur j hcur_mem hj).mp hpres with hedge | hedge
    · have hx := (edges_succ_split x l l1 [] cur hsplit hnodup j).mp hedge
      simp only [List.nil_append, List.head?_cons, Option.some.injEq] at hx
      subst hx
      cases l1 with
      | nil =>
        have : x = cur := by
          have := congrArg List.head? hsplit
          simpa using this
        rw [this]
        exact mark_self seen cur
      | cons z l1' =>
        have hxz : x = z := by
          have := congrArg List.head? hsplit
          simpa using this
        exact mark_true seen cur (hs2 x (hxz ▸ List.mem_cons_self _ _))
    · rcases (edges_pred_split x l l1 [] cur hsplit hnodup j).mp hedge with
        h | ⟨hl1, hlast⟩
      · exact mark_true seen cur (hs2 j (mem_of_getLast?_eq_some _ _ h))
      · subst hl1
        simp only [List.nil_append] at hsplit
        have hxcur : x = cur := by
          have := congrArg List.head? hsplit
          simpa using this
        have hlnil : l = [] := by
          have := congrArg List.tail hsplit
          simpa using this
        subst hlnil
        rw [List.getLast?_singleton] at hlast
        injection hlast with hlast
        rw [← hlast, hxcur]
        exact mark_self seen cur
  | cons nxt l2' ih =>
    intro l1 cur seen hsplit hs1 hs2
    have hcur_mem : cur ∈ x :: l := by rw [hsplit]; simp
    have hnxt_mem : nxt ∈ x :: l := by rw [hsplit]; simp
    have hnxt_lt : nxt < n := hlt nxt hnxt_mem
    have hnd : (l1 ++ cur :: nxt :: l2').Nodup := hsplit ▸ hnodup
    have hnd_right : (cur :: nxt :: l2').Nodup := hnd.of_append_right
    have hcur_notin : cur ∉ nxt :: l2' := (List.nodup_cons.mp hnd_right).1
    constructor
    · rw [best_next_eq_some]
      refine ⟨hnxt_lt, ?_, ?_, ?_⟩
      · rw [hadj cur nxt hcur_mem hnxt_lt]
        left
        rw [edges_succ_split x l l1 (nxt :: l2') cur hsplit hnodup nxt]
        simp
      · have hne : nxt ≠ cur := fun h => hcur_notin (h ▸ List.mem_cons_self _ _)
        rw [mark_ne seen hne]
        exact hs1 nxt (by simp)
      · intro j hjlt hpres
        have hjn : j < n := Nat.lt_trans hjlt hnxt_lt
        rcases (hadj cur j hcur_mem hjn).mp hpres with hedge | hedge
        · have := (edges_succ_split x l l1 (nxt :: l2') cur hsplit hnodup j).mp
            hedge
          simp only [List.cons_append, List.head?_cons, Option.some.injEq] at this
          omega
        · rcases (edges_pred_split x l l1 (nxt :: l2') cur hsplit hnodup j).mp
            hedge with h | ⟨hl1, hlast⟩
          · exact mark_true seen cur (hs2 j (mem_of_getLast?_eq_some _ _ h))
          · exfalso
            subst hl1
            simp only [List.nil_append] at hsplit
            have hxcur : x = cur := by
              have := congrArg List.head? hsplit
              simpa using this
            have hltail : l = nxt :: l2' := by
              have := congrArg List.tail hsplit
              simpa using this
            rw [hltail] at hcan
            have hlast' : (nxt :: l2').getLast? = some j := by
              rw [hxcur] at hlast
              rw [hltail] at hlast
              rwa [List.getLast?_cons_cons] at hlast
            have : (nxt :: l2').getLastD x = j := by
              rw [List.getLastD_eq_getLast?, hlast']
              rfl
            simp only [List.headD_cons] at hcan
            omega
    · apply ih (l1 ++ [cur]) nxt (mark seen cur)
      · rw [hsplit]; simp
      · intro v hv
        have hvfalse := hs1 v (List.mem_cons_of_mem _ hv)
        have hvne : v ≠ cur := fun h => hcur_notin (h ▸ hv)
        rw [mark_ne seen hvne]
        exact hvfalse
      · intro v hv
        rcases List.mem_append.mp hv with hv | hv
        · exact mark_true seen cur (hs2 v hv)
        · simp only [List.mem_singleton] at hv
          rw [hv]
          exact mark_self seen cur

theorem forced_cycle (n : Nat) (sol : Nat → Nat → ℚ) (x : Nat) (l : List Nat)
    (hnodup : (x :: l).Nodup)
    (hlt : ∀ v ∈ x :: l, v < n)
    (hadj : ∀ a v, a ∈ x :: l → v < n →
      (present sol a v = true ↔
        ((a, v) ∈ edges (x :: l) ∨ (v, a) ∈ edges (x :: l))))
    (hcan : l.headD x ≤ l.getLastD x)
    (seen : Nat → Bool) (hs : ∀ v ∈ x :: l, seen v = false)
    (fuel : Nat) (hfuel : l.length < fuel) :
    (next_tour n sol fuel seen x).1 = x :: l := by
  apply next_tour_forced n sol l fuel seen x _ hfuel
  apply forced_cycle_aux n sol x l hnodup hlt hadj hcan l [] x seen rfl hs
  intro v hv
  simp at hv

theorem nodup_of_mem_flatten :
    ∀ (CS : List (List Nat)), CS.flatten.Nodup → ∀ c ∈ CS, c.Nodup := by
  intro CS
  induction CS with
  | nil => intro _ c hc; simp at hc
  | cons d CS' ih =>
    intro hnd c hc
    rw [List.flatten_cons] at hnd
    rcases List.mem_cons.mp hc with hc | hc
    · rw [hc]; exact hnd.of_append_left
    · exact ih hnd.of_append_right c hc

theorem flatten_nodup_unique :
    ∀ (CS : List (List Nat)), CS.flatten.Nodup →
      ∀ c₁ ∈ CS, ∀ c₂ ∈ CS, ∀ a, a ∈ c₁ → a ∈ c₂ → c₁ = c₂ := by
  intro CS
  induction CS with
  | nil => intro _ c₁ hc₁; simp at hc₁
  | cons d CS' ih =>
    intro hnd c₁ hc₁ c₂ hc₂ a ha₁ ha₂
    rw [List.flatten_cons, List.nodup_append] at hnd
    obtain ⟨hd, hflat, hdisj⟩ := hnd
    rcases List.mem_cons.mp hc₁ with hc₁ | hc₁ <;>
      rcases List.mem_cons.mp hc₂ with hc₂ | hc₂
    · rw [hc₁, hc₂]
    · exfalso
      have h1 : a ∈ d := hc₁ ▸ ha₁
      have h2 : a ∈ CS'.flatten := List.mem_flatten.mpr ⟨c₂, hc₂, ha₂⟩
      exact hdisj h1 h2
    · exfalso
      have h1 : a ∈ d := hc₂ ▸ ha₂
      have h2 : a ∈ CS'.flatten := List.mem_flatten.mpr ⟨c₁, hc₁, ha₁⟩
      exact hdisj h1 h2
    · exact ih hflat c₁ hc₁ c₂ hc₂ a ha₁ ha₂

theorem sublist_flatten {R CS : List (List Nat)} (h : R.Sublist CS) :
    R.flatten.Sublist CS.flatten := by
  induction h with
  | slnil => exact List.Sublist.refl _
  | cons a _ ih =>
    rw [List.flatten_cons]
    exact ih.trans (List.sublist_append_right _ _)
  | cons₂ a _ ih =>
    rw [List.flatten_cons, List.flatten_cons]
    exact ih.append_left a

theorem nodup_length_le {l : List Nat} {n : Nat} (hnd : l.Nodup)
    (hlt : ∀ v ∈ l, v < n) : l.length ≤ n := by
  have hsub : l.toFinset ⊆ Finset.range n := by
    intro v hv
    rw [Finset.mem_range]
    exact hlt v (List.mem_toFinset.mp hv)
  have hcard := Finset.card_le_card hsub
  rw [Finset.card_range, List.toFinset_card_of_nodup hnd] at hcard
  exact hcard

theorem length_le_flatten_length :
    ∀ (R : List (List Nat)), (∀ c ∈ R, c ≠ []) →
      R.length ≤ R.flatten.length := by
  intro R
  induction R with
  | nil => intro _; simp
  | cons c R' ih =>
    intro hne
    rw [List.flatten_cons, List.length_append, List.length_cons]
    have h1 : 1 ≤ c.length := by
      have := hne c (List.mem_cons_self _ _)
      cases c with
      | nil => exact absurd rfl this
      | cons _ _ => simp
    have h2 := ih (fun d hd => hne d (List.mem_cons_of_mem _ hd))
    omega

theorem encodes_adj {n : Nat} {sol : Nat → Nat → ℚ} {CS : List (List Nat)}
    (hne_can : ∀ c ∈ CS, c ≠ [] ∧ canonical_cycle c)
    (hnodupCS : CS.flatten.Nodup)
    (hcov : ∀ v, v ∈ CS.flatten ↔ v < n)
    (hadjCS : ∀ u, u < n → ∀ v, v < n → present sol u v = cyc_adj CS u v)
    {c₀ : List Nat} (hc₀ : c₀ ∈ CS) :
    ∀ a v, a ∈ c₀ → v < n →
      (present sol a v = true ↔ ((a, v) ∈ edges c₀ ∨ (v, a) ∈ edges c₀)) := by
  intro a v ha hv
  have haf : a ∈ CS.flatten := List.mem_flatten.mpr ⟨c₀, hc₀, ha⟩
  have han : a < n := (hcov a).mp haf
  rw [hadjCS a han v hv]
  rw [cyc_adj, List.any_eq_true]
  constructor
  · rintro ⟨c', hc', hor⟩
    have hor' : (a, v) ∈ edges c' ∨ (v, a) ∈ edges c' := by
      simp only [Bool.or_eq_true, decide_eq_true_eq] at hor
      exact hor
    have hac' : a ∈ c' := by
      have hne' := (hne_can c' hc').1
      cases c' with
      | nil => exact absurd rfl hne'
      | cons x' l' =>
        rcases hor' with h | h
        · exact (edges_mem x' l' a v h).1
        · exact (edges_mem x' l' v a h).2
    have : c' = c₀ := flatten_nodup_unique CS hnodupCS c' hc' c₀ hc₀ a hac' ha
    rw [← this]
    exact hor'
  · intro hor
    refine ⟨c₀, hc₀, ?_⟩
    simp only [Bool.or_eq_true, decide_eq_true_eq]
    exact hor

theorem sub_tours_count {n : Nat} {sol : Nat → Nat → ℚ} {CS : List (List Nat)}
    (hne_can : ∀ c ∈ CS, c ≠ [] ∧ canonical_cycle c)
    (hnodupCS : CS.flatten.Nodup)
    (hcov : ∀ v, v ∈ CS.flatten ↔ v < n)
    (hadjCS : ∀ u, u < n → ∀ v, v < n → present sol u v = cyc_adj CS u v) :
    ∀ (fuel : Nat) (R : List (List Nat)) (seen : Nat → Bool), R.Sublist CS →
      (∀ v, v < n → (seen v = false ↔ v ∈ R.flatten)) →
      R.length ≤ fuel →
      (sub_tours_list n sol fuel seen).length = R.length := by
  intro fuel
  induction fuel with
  | zero =>
    intro R seen _ _ hlen
    have hR : R.length = 0 := by omega
    rw [hR]
    rfl
  | succ fuel ih =>
    intro R seen hsub hiff hlen
    rcases eq_or_ne R [] with hR | hR
    · subst hR
      have hnone : new_node n seen = none := by
        rw [new_node_eq_none]
        intro j hj
        have := (hiff j hj)
        simp only [List.flatten_nil, List.not_mem_nil, iff_false,
          Bool.not_eq_false] at this
        exact this
      simp [sub_tours_list, hnone]
    · -- pick the scan's start vertex and its cycle
      obtain ⟨c₁, hc₁⟩ := List.exists_mem_of_ne_nil R hR
      have hc₁ne : c₁ ≠ [] := (hne_can c₁ (hsub.subset hc₁)).1
      obtain ⟨v₁, hv₁⟩ := List.exists_mem_of_ne_nil c₁ hc₁ne
      have hv₁f : v₁ ∈ R.flatten := List.mem_flatten.mpr ⟨c₁, hc₁, hv₁⟩
      have hv₁n : v₁ < n := (hcov v₁).mp ((sublist_flatten hsub).subset hv₁f)
      have hv₁s : seen v₁ = false := (hiff v₁ hv₁n).mpr hv₁f
      cases hnode : new_node n seen with
      | none =>
        exfalso
        have := new_node_eq_none.mp hnode v₁ hv₁n
        rw [hv₁s] at this
        cases this
      | some node =>
        obtain ⟨hnlt, hns, hnmin⟩ := new_node_eq_some.mp hnode
        have hnf : node ∈ R.flatten := (hiff node hnlt).mp hns
        obtain ⟨c₀, hc₀R, hnc₀⟩ := List.mem_flatten.mp hnf
        have hc₀CS : c₀ ∈ CS := hsub.subset hc₀R
        have hc₀min : ∀ v ∈ c₀, node ≤ v := by
          intro v hvc
          have hvf : v ∈ R.flatten := List.mem_flatten.mpr ⟨c₀, hc₀R, hvc⟩
          have hvn : v < n := (hcov v).mp ((sublist_flatten hsub).subset hvf)
          by_contra hc
          have h1 : seen v = true := hnmin v (by omega)
          have h2 : seen v = false := (hiff v hvn).mpr hvf
          rw [h1] at h2
          cases h2
        obtain ⟨hc₀ne, hc₀can⟩ := hne_can c₀ hc₀CS
        rcases hshape : c₀ with _ | ⟨y, l₀⟩
        · exact absurd hshape hc₀ne
        · rw [hshape] at hc₀can
          have hynode : y = node := by
            have hyc : y ∈ c₀ := by rw [hshape]; exact List.mem_cons_self _ _
            have h1 : node ≤ y := hc₀min y hyc
            rw [hshape] at hnc₀
            rcases List.mem_cons.mp hnc₀ with h | h
            · omega
            · have h2 : y ≤ node := hc₀can.1 node h
              omega
          subst hynode
          have hc₀nodup : (y :: l₀).Nodup :=
            hshape ▸ nodup_of_mem_flatten CS hnodupCS c₀ hc₀CS
          have hc₀lt : ∀ v ∈ y :: l₀, v < n := by
            intro v hvc
            have hvf : v ∈ CS.flatten :=
              List.mem_flatten.mpr ⟨c₀, hc₀CS, hshape ▸ hvc⟩
            exact (hcov v).mp hvf
          have hc₀adj := encodes_adj hne_can hnodupCS hcov hadjCS hc₀CS
          have hc₀adj' : ∀ a v, a ∈ y :: l₀ → v < n →
              (present sol a v = true ↔
                ((a, v) ∈ edges (y :: l₀) ∨ (v, a) ∈ edges (y :: l₀))) := by
            intro a v ha hv
            rw [← hshape]
            exact hc₀adj a v (hshape ▸ ha) hv
          have hc₀seen : ∀ v ∈ y :: l₀, seen v = false := by
            intro v hvc
            have hvf : v ∈ R.flatten :=
              List.mem_flatten.mpr ⟨c₀, hc₀R, hshape ▸ hvc⟩
            have hvn : v < n := (hcov v).mp ((sublist_flatten hsub).subset hvf)
            exact (hiff v hvn).mpr hvf
          have hlen₀ : l₀.length < n := by
            have := nodup_length_le hc₀nodup hc₀lt
            simp only [List.length_cons] at this
            omega
          have hwalk := forced_cycle n sol y l₀ hc₀nodup hc₀lt hc₀adj'
            hc₀can.2 seen hc₀seen n hlen₀
          -- one step of the driver loop
          have hstep : sub_tours_list n sol (fuel + 1) seen =
              (next_tour n sol n seen y).1 ::
                sub_tours_list n sol fuel (next_tour n sol n seen y).2 := by
            simp [sub_tours_list, hnode]
          set s2 := (next_tour n sol n seen y).2 with hs2def
          have hs2char : ∀ v, s2 v = true ↔ (seen v = true ∨ v ∈ y :: l₀) := by
            intro v
            rw [hs2def]
            rw [next_tour_seen, hwalk]
          -- the remaining collection
          obtain ⟨pre, post, hRsplit⟩ := List.append_of_mem hc₀R
          have hRperm : R.Perm (c₀ :: (pre ++ post)) := by
            rw [hRsplit]
            exact List.perm_middle
          have hRf_nodup : R.flatten.Nodup :=
            hnodupCS.sublist (sublist_flatten hsub)
          have hRf_perm : R.flatten.Perm (c₀ ++ (pre ++ post).flatten) := by
            have := hRperm.flatten
            simpa using this
          have hdisj : ∀ v ∈ (pre ++ post).flatten, v ∉ c₀ := by
            have hnd2 : (c₀ ++ (pre ++ post).flatten).Nodup :=
              hRf_perm.nodup_iff.mp hRf_nodup
            rw [List.nodup_append] at hnd2
            intro v hv hvc
            exact hnd2.2.2 hvc hv
          have hiff' : ∀ v, v < n →
              (s2 v = false ↔ v ∈ (pre ++ post).flatten) := by
            intro v hv
            constructor
            · intro hfalse
              have hnot : ¬ (seen v = true ∨ v ∈ y :: l₀) := by
                intro hor
                have := (hs2char v).mpr hor
                rw [hfalse] at this
                cases this
              push_neg at hnot
              have hseenf : seen v = false := by
                cases hsv : seen v
                · rfl
                · exact absurd hsv hnot.1
              have hvR : v ∈ R.flatten := (hiff v hv).mp hseenf
              have := hRf_perm.mem_iff.mp hvR
              rcases List.mem_append.mp this with h | h
              · exact absurd (hshape ▸ h) hnot.2
              · exact h
            · intro hmem
              have hvc : v ∉ c₀ := hdisj v hmem
              have hvR : v ∈ R.flatten :=
                hRf_perm.mem_iff.mpr (List.mem_append.mpr (Or.inr hmem))
              have hseenf : seen v = false := (hiff v hv).mpr hvR
              by_contra hc
              have hs2t : s2 v = true := by
                cases hsv : s2 v
                · exact absurd hsv hc
                · rfl
              rcases (hs2char v).mp hs2t with h | h
              · rw [hseenf] at h; cases h
              · exact hvc (hshape ▸ h)
          have hsub' : (pre ++ post).Sublist CS := by
            refine List.Sublist.trans ?_ hsub
            rw [hRsplit]
            exact (List.sublist_cons_self c₀ post).append_left pre
          have hlenR : R.length = (pre ++ post).length + 1 := by
            rw [hRsplit]
            simp
            omega
          have hihres := ih (pre ++ post) s2 hsub' hiff' (by omega)
          rw [hstep]
          simp only [List.length_cons, hihres]
          omega

theorem flatten_nodup_pairwise :
    ∀ (CS : List (List Nat)), CS.flatten.Nodup →
      CS.Pairwise (fun s t => ∀ v ∈ s, v ∉ t) := by
  intro CS
  induction CS with
  | nil => intro _; exact List.Pairwise.nil
  | cons d CS' ih =>
    intro hnd
    rw [List.flatten_cons, List.nodup_append] at hnd
    obtain ⟨hd, hflat, hdisj⟩ := hnd
    refine List.Pairwise.cons ?_ (ih hflat)
    intro t ht v hv hvt
    exact hdisj hv (List.mem_flatten.mpr ⟨t, ht, hvt⟩)

theorem length_eq_of_nodup_mem_iff {l : List Nat} {n : Nat} (hnd : l.Nodup)
    (hiff : ∀ v, v ∈ l ↔ v < n) : l.length = n := by
  have hfs : l.toFinset = Finset.range n := by
    ext v
    rw [List.mem_toFinset, Finset.mem_range]
    exact hiff v
  have := List.toFinset_card_of_nodup hnd
  rw [hfs, Finset.card_range] at this
  omega

theorem decompose_flatten_nodup (n : Nat) (sol : Nat → Nat → ℚ) :
    (decompose n sol).flatten.Nodup :=
  (sub_tours_join n sol n init_seen).1

theorem decompose_mem_iff (n : Nat) (sol : Nat → Nat → ℚ) :
    ∀ v, v ∈ (decompose n sol).flatten ↔ v < n := by
  intro v
  constructor
  · intro hv
    exact ((sub_tours_join n sol n init_seen).2 v hv).2
  · intro hv
    have := sub_tours_complete n sol n init_seen
      (by rw [unseen_count_init]) v hv
    rcases this with h | h
    · exact absurd h (by simp [init_seen])
    · exact h

theorem decompose_ne_nil {n : Nat} (sol : Nat → Nat → ℚ) (hn : 0 < n) :
    decompose n sol ≠ [] := by
  have hnode : new_node n init_seen = some 0 :=
    new_node_eq_some.mpr ⟨hn, rfl, fun j hj => absurd hj (by omega)⟩
  rw [decompose]
  cases n with
  | zero => omega
  | succ m =>
    simp [sub_tours_list, hnode]

theorem list_map_sum_range (f : Nat → Nat) :
    ∀ n, ((List.range n).map f).sum = ∑ u ∈ Finset.range n, f u := by
  intro n
  induction n with
  | zero => simp
  | succ n ih =>
    rw [List.range_succ, List.map_append, List.sum_append,
      Finset.sum_range_succ, ih]
    simp

theorem range'_pairwise_lt :
    ∀ (len s : Nat), (List.range' s len).Pairwise (· < ·) := by
  intro len
  induction len with
  | zero => intro s; exact List.Pairwise.nil
  | succ len ih =>
    intro s
    have hcons : List.range' s (len + 1) = s :: List.range' (s + 1) len := rfl
    rw [hcons]
    refine List.Pairwise.cons ?_ (ih (s + 1))
    intro b hb
    have := List.mem_range'_1.mp hb
    omega

/-! ### Vertex identity model (`vertex.hpp`, `modelo.cpp`) -/

theorem make_vertices_ids :
    ∀ (coords : List (ℚ × ℚ × ℚ × ℚ)) (c : Nat),
      (make_vertices c coords).1.map vertex.ident =
        List.range' c coords.length ∧
      (make_vertices c coords).2 = c + coords.length := by
  intro coords
  induction coords with
  | nil => intro c; simp [make_vertices]
  | cons q rest ih =>
    intro c
    obtain ⟨h1, h2⟩ := ih (c + 1)
    constructor
    · simp only [make_vertices, make_vertex, next_id, List.map_cons, h1,
        List.length_cons]
      rfl
    · simp only [make_vertices, make_vertex, next_id, h2, List.length_cons]
      omega

/-! ### Graph model counts (`graph.hpp`) -/

theorem add_vars_pairs_length (n : Nat) :
    (add_vars_pairs n).length = n * (n - 1) / 2 := by
  rw [add_vars_pairs, List.length_flatMap]
  simp only [Function.comp_def]
  have hmap : (List.range n).map
      (fun u => ((List.range' (u + 1) (n - (u + 1))).map fun v => (u, v)).length)
      = (List.range n).map (fun u => n - (u + 1)) := by
    apply List.map_congr_left
    intro u _
    rw [List.length_map, List.length_range']
  rw [hmap, list_map_sum_range]
  have hcongr : ∑ u ∈ Finset.range n, (n - (u + 1)) =
      ∑ u ∈ Finset.range n, (n - 1 - u) := by
    apply Finset.sum_congr rfl
    intro u _
    omega
  rw [hcongr]
  have hreflect := Finset.sum_range_reflect (fun j => j) n
  simp only [id] at hreflect
  rw [hreflect]
  exact Finset.sum_range_id n

/-- C1: the claim states that the lazy cut sums the decision variables of
all unordered pairs inside the minimum sub-tour and asserts that the sum
equals `len - 1` (2 for a length-3 sub-tour out of `n = 6`).  The code
instead submits the right-hand side `count - 1 = n - 1`: on a candidate
decomposing into triangles `{0,3,4}` and `{1,2,5}` with minimum sub-tour
`[1,2,5]`, the emitted cut has exactly the claimed pairs but right-hand
side `5`, not `2`. -/
theorem C1_cut_rhs_is_vertex_count_minus_one :
    lazy_cut 6 sol_cycles_034_125 = some ([(1, 2), (1, 5), (2, 5)], 5) ∧
    (find_sub_tour 6 sol_cycles_034_125).length - 1 = 2 ∧ (5 : Nat) ≠ 2 := by
  decide

/-- C2: whenever the presence matrix decomposes into a single sub-tour (one
tour visiting all `n` vertices), the callback submits no cut. -/
theorem C2_single_full_tour_no_cut (n : Nat) (sol : Nat → Nat → ℚ)
    (t : List Nat) (h : decompose n sol = [t]) : lazy_cut n sol = none := by
  have hnd : t.Nodup := by
    have hh := decompose_flatten_nodup n sol
    rw [h] at hh
    simpa using hh
  have hiff : ∀ v, v ∈ t ↔ v < n := by
    intro v
    have hh := decompose_mem_iff n sol v
    rw [h] at hh
    simpa using hh
  have hlen : t.length = n := length_eq_of_nodup_mem_iff hnd hiff
  have hfind : find_sub_tour n sol = t := by
    rw [find_sub_tour, h]
    show min_step (all_vertices n) t = t
    rw [min_step, hlen, all_vertices_length]
    simp
  simp [lazy_cut, hfind, hlen]

/-- C2 witness: the 3-vertex triangle decomposes into the single tour
`[0,1,2]` and no cut is submitted. -/
theorem C2_single_full_tour_no_cut_witness :
    decompose 3 sol_triangle3 = [[0, 1, 2]] ∧ lazy_cut 3 sol_triangle3 = none :=
  ⟨by decide, C2_single_full_tour_no_cut 3 sol_triangle3 [0, 1, 2] (by decide)⟩

/-- C3 counterexample: on the matrix with the two 2-cycles `{0,1}` and
`{2,3}`, decomposition yields `[0,1]` then `[2,3]` (both of minimal length
2), and the selector returns the last-found `[2,3]`, not the first-found
`[0,1]` whose start vertex has the smallest index, because the update
condition is `tour->size() <= min_tour.size()`. -/
theorem C3_tie_goes_to_last_found :
    decompose 4 sol_two_pairs = [[0, 1], [2, 3]] ∧
    find_sub_tour 4 sol_two_pairs = [2, 3] ∧
    ([2, 3] : List Nat) ≠ [0, 1] := by
  decide

/-- C3 (amended): for every presence matrix on `n ≥ 1` vertices the
selector returns a sub-tour of minimal length among all decomposed
sub-tours, and when several share that minimal length it returns the
last-found one: every earlier sub-tour is at least as long and every later
sub-tour is strictly longer. -/
theorem C3_selector_min_last_found (n : Nat) (sol : Nat → Nat → ℚ)
    (hn : 0 < n) :
    ∃ pre post, decompose n sol = pre ++ find_sub_tour n sol :: post ∧
      (∀ t ∈ pre, (find_sub_tour n sol).length ≤ t.length) ∧
      (∀ t ∈ post, (find_sub_tour n sol).length < t.length) := by
  rcases foldl_min_step_spec (decompose n sol) (all_vertices n) with
    ⟨hr, hall⟩ | ⟨pre, post, hsplit, _, hpre, hpost⟩
  · exfalso
    obtain ⟨t, ht⟩ := List.exists_mem_of_ne_nil _ (decompose_ne_nil sol hn)
    have h1 := hall t ht
    have h2 : t.length ≤ n := sub_tours_tour_length n sol n init_seen t ht
    rw [all_vertices_length] at h1
    omega
  · exact ⟨pre, post, hsplit, hpre, hpost⟩

/-- C3 witness: the amended tie-break property at the concrete two-pair
matrix. -/
theorem C3_selector_min_last_found_witness :
    0 < 4 ∧
    ∃ pre post, decompose 4 sol_two_pairs =
        pre ++ find_sub_tour 4 sol_two_pairs :: post ∧
      (∀ t ∈ pre, (find_sub_tour 4 sol_two_pairs).length ≤ t.length) ∧
      (∀ t ∈ post, (find_sub_tour 4 sol_two_pairs).length < t.length) :=
  ⟨by decide, C3_selector_min_last_found 4 sol_two_pairs (by decide)⟩

/-- C4: in the codigo revisions `all_vertices` reserves capacity but never
grows the vector, so the sentinel is empty (length 0, not `n`) and
`find_sub_tour` returns the empty walk (length 0, outside `[1, n]`); the
modelo revision's `all_vertices` does produce `[0..n)`. -/
theorem C4_codigo_sentinel_is_empty :
    all_vertices_codigo 3 = [] ∧
    find_sub_tour_codigo 3 sol_zero = [] ∧
    all_vertices 3 = [0, 1, 2] := by
  decide

/-- C5: the decomposed sub-tours are duplicate-free, pairwise
vertex-disjoint, and their union is exactly `[0, n)`; and for a matrix
encoding `k > 1` disjoint cycles partitioning the vertices, decomposition
yields exactly `k` sub-tours whose lengths sum to `n`. -/
theorem C5_decomposition_is_partition (n : Nat) (sol : Nat → Nat → ℚ) :
    (∀ t ∈ decompose n sol, t.Nodup) ∧
    (decompose n sol).Pairwise (fun s t => ∀ v ∈ s, v ∉ t) ∧
    (∀ v, v ∈ (decompose n sol).flatten ↔ v < n) ∧
    (∀ cycles, encodes n sol cycles → 1 < cycles.length →
      (decompose n sol).length = cycles.length ∧
      ((decompose n sol).map List.length).sum = n) := by
  refine ⟨?_, ?_, decompose_mem_iff n sol, ?_⟩
  · intro t ht
    exact nodup_of_mem_flatten _ (decompose_flatten_nodup n sol) t ht
  · exact flatten_nodup_pairwise _ (decompose_flatten_nodup n sol)
  · rintro cycles ⟨hne_can, hnodupCS, hbound, hcover, hadjCS⟩ _
    have hcov : ∀ v, v ∈ cycles.flatten ↔ v < n :=
      fun v => ⟨hbound v, hcover v⟩
    constructor
    · have h1 := length_le_flatten_length cycles (fun c hc => (hne_can c hc).1)
      have h2 := nodup_length_le hnodupCS hbound
      exact sub_tours_count hne_can hnodupCS hcov hadjCS n cycles init_seen
        (List.Sublist.refl _) (fun v hv => iff_of_true rfl ((hcov v).mpr hv))
        (by omega)
    · have hflen : (decompose n sol).flatten.length = n :=
        length_eq_of_nodup_mem_iff (decompose_flatten_nodup n sol)
          (decompose_mem_iff n sol)
      rw [← List.length_flatten]
      exact hflen

/-- C5 witness: the two-triangle matrix on 6 vertices decomposes into
exactly 2 sub-tours whose lengths sum to 6. -/
theorem C5_decomposition_is_partition_witness :
    encodes 6 sol_two_triangles [[0, 1, 2], [3, 4, 5]] ∧
    1 < ([[0, 1, 2], [3, 4, 5]] : List (List Nat)).length ∧
    ((decompose 6 sol_two_triangles).length =
        ([[0, 1, 2], [3, 4, 5]] : List (List Nat)).length ∧
      ((decompose 6 sol_two_triangles).map List.length).sum = 6) :=
  ⟨by decide, by decide,
    (C5_decomposition_is_partition 6 sol_two_triangles).2.2.2
      [[0, 1, 2], [3, 4, 5]] (by decide) (by decide)⟩

/-- C6: walk extraction always terminates with a walk of at most `n`
vertices (the loop counter starts at `count`), for any matrix, well-formed
or not; the final seen state marks exactly the old marks plus the walk. -/
theorem C6_walk_extraction_bounded (n : Nat) (sol : Nat → Nat → ℚ)
    (seen : Nat → Bool) (node : Nat) :
    (next_tour n sol n seen node).1.length ≤ n ∧
    (∀ v, (next_tour n sol n seen node).2 v = true ↔
      (seen v = true ∨ v ∈ (next_tour n sol n seen node).1)) :=
  ⟨next_tour_length n sol n seen node, next_tour_seen n sol n seen node⟩

/-- C7 counterexample: in the `codigo/modelo.cpp` revision the counter
starts at 0, so the first vertex created by the public coordinate
constructor receives id 0, not 1 as the claim states (the header revisions
do start at 1). -/
theorem C7_first_id_is_zero_in_modelo_cpp :
    (make_vertices mcpp_initial_counter [(0, 0, 0, 0)]).1.map vertex.ident
      = [0] ∧
    (make_vertices hpp_initial_counter [(0, 0, 0, 0)]).1.map vertex.ident
      = [1] ∧
    (0 : Nat) ≠ 1 := by
  decide

/-- C7 (amended): ids handed out by the public coordinate constructor form
the strictly increasing run starting at the counter's initial value — 1 in
the vertex.hpp revisions, 0 in the codigo/modelo.cpp revision — so ids are
monotone and never reused within one run, and `operator==` holds exactly
when ids match. -/
theorem C7_identity_counter_monotone (coords : List (ℚ × ℚ × ℚ × ℚ)) :
    (make_vertices hpp_initial_counter coords).1.map vertex.ident =
      List.range' 1 coords.length ∧
    (make_vertices mcpp_initial_counter coords).1.map vertex.ident =
      List.range' 0 coords.length ∧
    (∀ c, ((make_vertices c coords).1.map vertex.ident).Pairwise (· < ·) ∧
      ((make_vertices c coords).1.map vertex.ident).Nodup) ∧
    (∀ a b : vertex, vertex_eq a b = true ↔ a.ident = b.ident) := by
  refine ⟨(make_vertices_ids coords 1).1, (make_vertices_ids coords 0).1,
    ?_, ?_⟩
  · intro c
    rw [(make_vertices_ids coords c).1]
    refine ⟨range'_pairwise_lt _ _, ?_⟩
    exact List.Pairwise.nodup (range'_pairwise_lt _ _)
  · intro a b
    simp [vertex_eq]

/-- C8: the decomposition loop's outcome does not depend on the iteration
budget once the budget covers the unseen vertices, so any two complete runs
from the fresh all-false seen state produce the identical ordered list of
sub-tours. -/
theorem C8_decomposition_deterministic (n : Nat) (sol : Nat → Nat → ℚ)
    (fuel1 fuel2 : Nat) (h1 : n ≤ fuel1) (h2 : n ≤ fuel2) :
    sub_tours_list n sol fuel1 init_seen =
      sub_tours_list n sol fuel2 init_seen ∧
    sub_tours_list n sol fuel1 init_seen = decompose n sol := by
  have hcount : unseen_count n init_seen = n := unseen_count_init n
  exact ⟨sub_tours_fuel_stable n sol fuel1 fuel2 init_seen (by omega) (by omega),
    sub_tours_fuel_stable n sol fuel1 n init_seen (by omega) (by omega)⟩

/-- C8 witness: two runs with budgets 3 and 7 on the triangle matrix agree
and equal `decompose`. -/
theorem C8_decomposition_deterministic_witness :
    3 ≤ 3 ∧ 3 ≤ 7 ∧
    (sub_tours_list 3 sol_triangle3 3 init_seen =
        sub_tours_list 3 sol_triangle3 7 init_seen ∧
      sub_tours_list 3 sol_triangle3 3 init_seen = decompose 3 sol_triangle3) :=
  ⟨by decide, by decide,
    C8_decomposition_deterministic 3 sol_triangle3 3 7 (by decide) (by decide)⟩

/-- C9: `graph::size()`, documented as the number of edges, returns
`n*(n+1)/2`, while `add_vars` creates exactly `n*(n-1)/2` edge-selection
variables (one per unordered pair of distinct vertices); for `n ≥ 1` the
two numbers differ. -/
theorem C9_size_formula_vs_created_vars (n : Nat) :
    graph_size n = n * (n + 1) / 2 ∧
    (add_vars_pairs n).length = n * (n - 1) / 2 ∧
    (1 ≤ n → graph_size n ≠ (add_vars_pairs n).length) := by
  refine ⟨rfl, add_vars_pairs_length n, ?_⟩
  intro hn
  rw [graph_size, add_vars_pairs_length]
  cases n with
  | zero => omega
  | succ m =>
    have hA : (m + 1) * (m + 1 + 1) = (m + 1) * ((m + 1) - 1) + 2 * (m + 1) := by
      simp only [Nat.add_sub_cancel]
      ring
    obtain ⟨k1, hk1⟩ := Nat.even_mul_succ_self (m + 1)
    obtain ⟨k2, hk2⟩ := Nat.even_mul_succ_self m
    have hB : (m + 1) * ((m + 1) - 1) = m * (m + 1) := by
      simp only [Nat.add_sub_cancel]
      ring
    omega

/-- C9 witness: at `n = 5` the accessor reports 15 "edges" while 10
variables are created. -/
theorem C9_size_formula_vs_created_vars_witness :
    1 ≤ 5 ∧ graph_size 5 ≠ (add_vars_pairs 5).length :=
  ⟨by decide, (C9_size_formula_vs_created_vars 5).2.2 (by decide)⟩

/-- C10: the default constructor assigns a fixed sentinel id (0 in the
modelo revision, `SIZE_MAX` in the codigo revisions) without touching the
process-wide counter, and equality compares ids only, so any two
default-constructed vertices compare equal. -/
theorem C10_default_vertices_compare_equal :
    (∀ c, (default_vertex c).2 = c ∧ (default_vertex_codigo c).2 = c) ∧
    (∀ c1 c2, vertex_eq (default_vertex c1).1 (default_vertex c2).1 = true) ∧
    (∀ c1 c2, vertex_eq (default_vertex_codigo c1).1
      (default_vertex_codigo c2).1 = true) := by
  refine ⟨fun c => ⟨rfl, rfl⟩, fun c1 c2 => rfl, fun c1 c2 => ?_⟩
  simp [vertex_eq, default_vertex_codigo]

end TSP

